import Mathlib

/-!
Verification of the `afs` virtual-filesystem library.

Shallow embedding of `src/lib.rs`, `src/filesystem.rs`, `src/virtual_fs.rs`
and (the pure path logic of) `src/std_fs.rs`.

Paths are modelled as lists of `std::path::Component`-style components;
`Path::starts_with`/`strip_prefix` become component-list prefix tests.
`io::Error` is modelled by its kind and message; `SystemTime` by `Nat`.
Backends (`Box<Filesystem>` trait objects) are records of operation
functions; opened `Box<File>` handles are opaque tokens (`Nat`).
`BTreeMap` is modelled as a sorted association list with replacing insert.
-/

namespace Afs

/-- A `std::path::Component`: windows prefix, root dir, current dir,
parent dir, or a normal segment. -/
inductive Component where
  | winPre (s : String)
  | rootDir
  | curDir
  | parentDir
  | normal (s : String)
deriving DecidableEq, Repr

/-- A path, as its component list (`Path::components`). -/
abbrev Path := List Component

/-- From `src/lib.rs`: `is_valid_path` — every component is `Normal`. -/
def is_valid_path (p : Path) : Bool :=
  p.all fun c =>
    match c with
    | .normal _ => true
    | _ => false

/-- Error kinds of `std::io::ErrorKind` used by this crate. -/
inductive ErrorKind where
  | notFound
  | permissionDenied
  | invalidInput
  | alreadyExists
  | other (n : Nat)
deriving DecidableEq, Repr

/-- A `std::io::Error`, reduced to its kind and message. -/
structure IoError where
  kind : ErrorKind
  msg : String
deriving DecidableEq, Repr

/-- The `InvalidInput` error built by `validate_path` in `src/lib.rs`,
with its message. -/
def invalidErr : IoError :=
  ⟨.invalidInput,
   "myfs only allows the use of normal path components (no windows prefix, no root dir, no current dir, no parent dir)"⟩

/-- From `src/lib.rs`: `validate_path`. -/
def validate_path (p : Path) : Except IoError Unit :=
  if is_valid_path p then .ok () else .error invalidErr

/-- `FileType` bitflags from `src/filesystem.rs` (a `u16` bit set). -/
abbrev FileType := Nat

/-- `FILE = 0b0001`. -/
def FILE : FileType := 1

/-- `DIRECTORY = 0b0010`. -/
def DIRECTORY : FileType := 2

/-- `ARCHIVE = DIRECTORY.bits | FILE.bits`. -/
def ARCHIVE : FileType := DIRECTORY ||| FILE

/-- `Metadata` from `src/filesystem.rs`; `SystemTime` is modelled as `Nat`. -/
structure Metadata where
  is_readonly : Bool
  file_type : FileType
  len : Option Nat
  created : Option Nat
  accessed : Option Nat
  modified : Option Nat
deriving DecidableEq, Repr

/-- `OpenOptions` bitflags from `src/filesystem.rs` (a `u16` bit set). -/
abbrev OpenOptions := Nat

/-- `READ = 0b0000_0001`. -/
def READ : OpenOptions := 1

/-- `WRITE = 0b0000_0010`. -/
def WRITE : OpenOptions := 2

/-- `APPEND = 0b0000_0100 | WRITE.bits`. -/
def APPEND : OpenOptions := 4 ||| WRITE

/-- `TRUNCATE = 0b0000_1000 | WRITE.bits`. -/
def TRUNCATE : OpenOptions := 8 ||| WRITE

/-- `CREATE = 0b0001_0000 | WRITE.bits`. -/
def CREATE : OpenOptions := 16 ||| WRITE

/-- `CREATE_NEW = TRUNCATE.bits | WRITE.bits`. -/
def CREATE_NEW : OpenOptions := TRUNCATE ||| WRITE

/-- `bitflags`' `contains`: all bits of `other` are present in `self`. -/
def optsContains (self other : OpenOptions) : Bool :=
  (self &&& other) == other

/-- An opened `Box<File>` handle, opaque to the mount table. -/
abbrev FileH := Nat

/-- The `Filesystem` trait of `src/filesystem.rs`: a backend is a record
of its operations (a trait object). `read_dir` returns its `BTreeMap`
as an association list. -/
structure Filesystem where
  metadata : Path → Except IoError Metadata
  open_file : Path → OpenOptions → Except IoError FileH
  remove_file : Path → Except IoError Unit
  read_dir : Path → Except IoError (List (Path × Metadata))
  create_dir : Path → Except IoError Unit
  create_dir_all : Path → Except IoError Unit
  remove_dir : Path → Except IoError Unit
  remove_dir_all : Path → Except IoError Unit

/-- `Path::strip_prefix`: if `pre` is a leading-component prefix of `p`,
the remainder, else failure. -/
def stripPre (pre p : Path) : Option Path :=
  if pre.isPrefixOf p then some (p.drop pre.length) else none

/-- Rank of a component constructor in `std::path::Component`'s derived
order (`Prefix < RootDir < CurDir < ParentDir < Normal`). -/
def Component.key : Component → Nat × String
  | .winPre s => (0, s)
  | .rootDir => (1, "")
  | .curDir => (2, "")
  | .parentDir => (3, "")
  | .normal s => (4, s)

/-- Lexicographic strictly-less test on char lists by code point. -/
def charListLt : List Char → List Char → Bool
  | _, [] => false
  | [], _ :: _ => true
  | c :: cs, d :: ds =>
    if c.toNat < d.toNat then true
    else if d.toNat < c.toNat then false
    else charListLt cs ds

/-- Strictly-less on segment text, by code point (for plain segments the
UTF-8 byte order `OsStr` uses agrees with code-point order). -/
def strLtB (a b : String) : Bool := charListLt a.data b.data

/-- Comparator on components: by constructor rank, then by segment text. -/
def cmpComponent (a b : Component) : Ordering :=
  if a = b then .eq
  else if a.key.1 < b.key.1 ∨ (a.key.1 = b.key.1 ∧ strLtB a.key.2 b.key.2 = true) then .lt
  else .gt

/-- `PathBuf`'s `Ord`: lexicographic on components. -/
def pathCmp : Path → Path → Ordering
  | [], [] => .eq
  | [], _ :: _ => .lt
  | _ :: _, [] => .gt
  | a :: as_, b :: bs =>
    match cmpComponent a b with
    | .eq => pathCmp as_ bs
    | o => o

/-- `BTreeMap::insert` on the sorted-association-list model: keep keys
sorted, replace an equal key. -/
def insertSorted {α : Type} (k : Path) (v : α) : List (Path × α) → List (Path × α)
  | [] => [(k, v)]
  | (k', v') :: rest =>
    match pathCmp k k' with
    | .lt => (k, v) :: (k', v') :: rest
    | .eq => (k, v) :: rest
    | .gt => (k', v') :: insertSorted k v rest

/-- `BTreeMap::remove`: remove the entry with exactly this key,
returning the removed value and the remaining list. -/
def removeKey {α : Type} (k : Path) : List (Path × α) → Option α × List (Path × α)
  | [] => (none, [])
  | (k', v') :: rest =>
    if k' = k then (some v', rest)
    else ((removeKey k rest).1, (k', v') :: (removeKey k rest).2)

/-- `MountError` from `src/virtual_fs.rs`. -/
inductive MountError where
  | InvalidPath
  | LocationOverlap
deriving DecidableEq, Repr

/-- `VirtualFs`: the mount table, a `BTreeMap<PathBuf, Box<Filesystem>>`. -/
structure VirtualFs where
  mounted : List (Path × Filesystem)

/-- `VirtualFs::new` (`Default`): the empty table. -/
def VirtualFs.new : VirtualFs := ⟨[]⟩

/-- `VirtualFs::mount` from `src/virtual_fs.rs`: validate the base,
reject any prefix overlap with an existing base, else insert. Returns
the updated table in place of Rust's `&mut self` mutation. -/
def VirtualFs.mount (self : VirtualFs) (vpath : Path) (fs : Filesystem) :
    Except MountError VirtualFs :=
  if !is_valid_path vpath then .error .InvalidPath
  else if self.mounted.any fun e => e.1.isPrefixOf vpath || vpath.isPrefixOf e.1 then
    .error .LocationOverlap
  else .ok ⟨insertSorted vpath fs self.mounted⟩

/-- `VirtualFs::unmount`: remove and return the backend bound at exactly
`vpath`; also returns the updated table. -/
def VirtualFs.unmount (self : VirtualFs) (vpath : Path) :
    Option Filesystem × VirtualFs :=
  ((removeKey vpath self.mounted).1, ⟨(removeKey vpath self.mounted).2⟩)

/-- `VirtualFs::unmount_all`: clear every binding. -/
def VirtualFs.unmount_all (_ : VirtualFs) : VirtualFs := ⟨[]⟩

/-- The synthesized virtual-directory metadata `VDIR_META`. -/
def VDIR_META : Metadata :=
  { is_readonly := true
    file_type := DIRECTORY
    len := none
    created := none
    accessed := none
    modified := none }

/-- `not_found()` helper from `src/virtual_fs.rs`. -/
def not_found {α : Type} : Except IoError α :=
  .error ⟨.notFound, ""⟩

/-- `permission_denied()` helper from `src/virtual_fs.rs`. -/
def permission_denied {α : Type} : Except IoError α :=
  .error ⟨.permissionDenied, ""⟩

/-- Binding scan of `VirtualFs::metadata`: first exact/descendant match
delegates, first ancestor match yields `VDIR_META`, else not found. -/
def metadataLoop : List (Path × Filesystem) → Path → Except IoError Metadata
  | [], _ => not_found
  | (vbase, fs) :: rest, vpath =>
    match stripPre vbase vpath with
    | some vrest => fs.metadata vrest
    | none =>
      if vpath.isPrefixOf vbase then .ok VDIR_META
      else metadataLoop rest vpath

/-- `VirtualFs::metadata`. -/
def VirtualFs.metadata (self : VirtualFs) (vpath : Path) : Except IoError Metadata :=
  match validate_path vpath with
  | .error e => .error e
  | .ok _ => metadataLoop self.mounted vpath

/-- Binding scan of `VirtualFs::open_file`. -/
def openFileLoop : List (Path × Filesystem) → Path → OpenOptions → Except IoError FileH
  | [], _, _ => not_found
  | (vbase, fs) :: rest, vpath, opts =>
    match stripPre vbase vpath with
    | some vrest => fs.open_file vrest opts
    | none =>
      if vpath.isPrefixOf vbase then permission_denied
      else openFileLoop rest vpath opts

/-- `VirtualFs::open_file`. -/
def VirtualFs.open_file (self : VirtualFs) (vpath : Path) (opts : OpenOptions) :
    Except IoError FileH :=
  match validate_path vpath with
  | .error e => .error e
  | .ok _ => openFileLoop self.mounted vpath opts

/-- Binding scan of `VirtualFs::remove_file`. -/
def removeFileLoop : List (Path × Filesystem) → Path → Except IoError Unit
  | [], _ => not_found
  | (vbase, fs) :: rest, vpath =>
    match stripPre vbase vpath with
    | some vrest => fs.remove_file vrest
    | none =>
      if vpath.isPrefixOf vbase then permission_denied
      else removeFileLoop rest vpath

/-- `VirtualFs::remove_file`. -/
def VirtualFs.remove_file (self : VirtualFs) (vpath : Path) : Except IoError Unit :=
  match validate_path vpath with
  | .error e => .error e
  | .ok _ => removeFileLoop self.mounted vpath

/-- Binding scan of `VirtualFs::read_dir`, carrying the accumulated
synthesized entries: an exact/descendant match delegates outright; an
ancestor match inserts the relative base with `VDIR_META`; an empty
final accumulation is not found. -/
def readDirLoop (vpath : Path) :
    List (Path × Filesystem) → List (Path × Metadata) →
    Except IoError (List (Path × Metadata))
  | [], ret => if ret.isEmpty then not_found else .ok ret
  | (vbase, fs) :: rest, ret =>
    match stripPre vbase vpath with
    | some vrest => fs.read_dir vrest
    | none =>
      match stripPre vpath vbase with
      | some vdir => readDirLoop vpath rest (insertSorted vdir VDIR_META ret)
      | none => readDirLoop vpath rest ret

/-- `VirtualFs::read_dir`. -/
def VirtualFs.read_dir (self : VirtualFs) (vpath : Path) :
    Except IoError (List (Path × Metadata)) :=
  match validate_path vpath with
  | .error e => .error e
  | .ok _ => readDirLoop vpath self.mounted []

/-- Binding scan of `VirtualFs::create_dir`: only exact/descendant
matches delegate; anything else is permission denied. -/
def createDirLoop : List (Path × Filesystem) → Path → Except IoError Unit
  | [], _ => permission_denied
  | (vbase, fs) :: rest, vpath =>
    match stripPre vbase vpath with
    | some vrest => fs.create_dir vrest
    | none => createDirLoop rest vpath

/-- `VirtualFs::create_dir`. -/
def VirtualFs.create_dir (self : VirtualFs) (vpath : Path) : Except IoError Unit :=
  match validate_path vpath with
  | .error e => .error e
  | .ok _ => createDirLoop self.mounted vpath

/-- Binding scan of `VirtualFs::create_dir_all`. -/
def createDirAllLoop : List (Path × Filesystem) → Path → Except IoError Unit
  | [], _ => permission_denied
  | (vbase, fs) :: rest, vpath =>
    match stripPre vbase vpath with
    | some vrest => fs.create_dir_all vrest
    | none => createDirAllLoop rest vpath

/-- `VirtualFs::create_dir_all`. -/
def VirtualFs.create_dir_all (self : VirtualFs) (vpath : Path) : Except IoError Unit :=
  match validate_path vpath with
  | .error e => .error e
  | .ok _ => createDirAllLoop self.mounted vpath

/-- Binding scan of `VirtualFs::remove_dir`. -/
def removeDirLoop : List (Path × Filesystem) → Path → Except IoError Unit
  | [], _ => not_found
  | (vbase, fs) :: rest, vpath =>
    match stripPre vbase vpath with
    | some vrest => fs.remove_dir vrest
    | none =>
      if vpath.isPrefixOf vbase then permission_denied
      else removeDirLoop rest vpath

/-- `VirtualFs::remove_dir`. -/
def VirtualFs.remove_dir (self : VirtualFs) (vpath : Path) : Except IoError Unit :=
  match validate_path vpath with
  | .error e => .error e
  | .ok _ => removeDirLoop self.mounted vpath

/-- Binding scan of `VirtualFs::remove_dir_all`. -/
def removeDirAllLoop : List (Path × Filesystem) → Path → Except IoError Unit
  | [], _ => not_found
  | (vbase, fs) :: rest, vpath =>
    match stripPre vbase vpath with
    | some vrest => fs.remove_dir_all vrest
    | none =>
      if vpath.isPrefixOf vbase then permission_denied
      else removeDirAllLoop rest vpath

/-- `VirtualFs::remove_dir_all`. -/
def VirtualFs.remove_dir_all (self : VirtualFs) (vpath : Path) : Except IoError Unit :=
  match validate_path vpath with
  | .error e => .error e
  | .ok _ => removeDirAllLoop self.mounted vpath

/-- Two bindings do not overlap: neither base is a component prefix of
the other (this also rules out equal bases). -/
def NoOverlap (a b : Path × Filesystem) : Prop :=
  ¬ a.1 <+: b.1 ∧ ¬ b.1 <+: a.1

/-- The §3 mount-table invariant: all bindings pairwise non-overlapping. -/
def TableInv (st : VirtualFs) : Prop :=
  st.mounted.Pairwise NoOverlap

/-- Mount-table states reachable from the empty table through the
mutating surface (`mount` on success, `unmount`, `unmount_all`; a failed
`mount` leaves the table unchanged). -/
inductive Reachable : VirtualFs → Prop where
  | empty : Reachable ⟨[]⟩
  | mountOk {st st' : VirtualFs} {v : Path} {fs : Filesystem} :
      Reachable st → st.mount v fs = .ok st' → Reachable st'
  | unmountStep {st : VirtualFs} (v : Path) :
      Reachable st → Reachable (st.unmount v).2
  | unmountAll {st : VirtualFs} :
      Reachable st → Reachable st.unmount_all

/-- The flag configuration `StdFs::open_file` passes to
`std::fs::OpenOptions` in `src/std_fs.rs`. -/
structure StdOpenConfig where
  read : Bool
  write : Bool
  append : Bool
  truncate : Bool
  create : Bool
  createNew : Bool
deriving DecidableEq, Repr

/-- From `StdFs::open_file`: each flag is `opts.contains(FLAG)`. -/
def stdOpenConfig (opts : OpenOptions) : StdOpenConfig :=
  { read := optsContains opts READ
    write := optsContains opts WRITE
    append := optsContains opts APPEND
    truncate := optsContains opts TRUNCATE
    create := optsContains opts CREATE
    createNew := optsContains opts CREATE_NEW }

/-- The operating-system directory state seen by `StdFs::read_dir`:
`std::fs::read_dir` on a real directory path yields entries as (file
name, metadata) pairs; an entry's `path()` is the queried directory path
followed by its name. Per-entry I/O errors are folded into the `Except`. -/
structure OsEnv where
  dirEntries : Path → Except IoError (List (String × Metadata))

/-- `StdFs` from `src/std_fs.rs`: a backend rooted at a real base path. -/
structure StdFs where
  base : Path

/-- `StdFs::read_dir` from `src/std_fs.rs`: validate, list
`self.base.join(vpath)`, and key each entry by
`entry.path().strip_prefix(&self.base)` = `vpath` followed by the entry
name, collected into a `BTreeMap`. -/
def StdFs.read_dir (os : OsEnv) (self : StdFs) (vpath : Path) :
    Except IoError (List (Path × Metadata)) :=
  match validate_path vpath with
  | .error e => .error e
  | .ok _ =>
    match os.dirEntries (self.base ++ vpath) with
    | .error e => .error e
    | .ok ents =>
      .ok (ents.foldl
        (fun ret ent => insertSorted (vpath ++ [Component.normal ent.1]) ent.2 ret)
        [])

/-- The synthesized entries `VirtualFs::read_dir` collects for a path
with no exact/descendant match: one per binding whose base the queried
path prefixes, keyed by the base made relative to the queried path. -/
def ancEntries (p : Path) (l : List (Path × Filesystem)) : List (Path × Metadata) :=
  (l.filter fun e => p.isPrefixOf e.1).map fun e => (e.1.drop p.length, VDIR_META)

/-- Sample metadata for concrete test backends. -/
def testMeta : Metadata :=
  { is_readonly := false
    file_type := FILE
    len := some 3
    created := none
    accessed := some 7
    modified := none }

/-- A concrete backend used to instantiate theorems: its results vary
with the path so that delegation equalities are observable. -/
def testFs : Filesystem where
  metadata := fun p => .ok { testMeta with len := some p.length }
  open_file := fun p opts => .ok (p.length + opts)
  remove_file := fun _ => .ok ()
  read_dir := fun p => .ok [(p ++ [Component.normal "child"], testMeta)]
  create_dir := fun _ => .ok ()
  create_dir_all := fun _ => .error ⟨.alreadyExists, "exists"⟩
  remove_dir := fun p => if p = [] then .error ⟨.other 9, "backend"⟩ else .ok ()
  remove_dir_all := fun _ => .ok ()

/-- A second concrete backend, distinguishable from `testFs`. -/
def testFs2 : Filesystem where
  metadata := fun _ => .error ⟨.notFound, "b2"⟩
  open_file := fun _ _ => .ok 42
  remove_file := fun _ => .error ⟨.permissionDenied, "b2"⟩
  read_dir := fun _ => .ok []
  create_dir := fun _ => .ok ()
  create_dir_all := fun _ => .ok ()
  remove_dir := fun _ => .ok ()
  remove_dir_all := fun _ => .error ⟨.other 1, "b2"⟩

/-- A concrete two-binding table for instantiating theorems. -/
def demoSt : VirtualFs :=
  ⟨[([Component.normal "a", Component.normal "b"], testFs),
    ([Component.normal "c"], testFs2)]⟩

instance noOverlapDecidable (a b : Path × Filesystem) : Decidable (NoOverlap a b) :=
  inferInstanceAs (Decidable (¬ a.1 <+: b.1 ∧ ¬ b.1 <+: a.1))

instance tableInvDecidable (st : VirtualFs) : Decidable (TableInv st) :=
  inferInstanceAs (Decidable (st.mounted.Pairwise NoOverlap))

/-! ### Basic lemmas about the path and map models -/

theorem cmpComponent_eq_iff {a b : Component} : cmpComponent a b = .eq ↔ a = b := by
  unfold cmpComponent
  by_cases h : a = b
  · simp [h]
  · simp only [if_neg h]
    constructor
    · intro hc
      split at hc <;> cases hc
    · intro hc
      exact absurd hc h

theorem pathCmp_eq_iff : ∀ (a b : Path), pathCmp a b = .eq ↔ a = b := by
  intro a
  induction a with
  | nil => intro b; cases b <;> simp [pathCmp]
  | cons x xs ih =>
    intro b
    cases b with
    | nil => simp [pathCmp]
    | cons y ys =>
      simp only [pathCmp]
      by_cases hxy : x = y
      · rw [show cmpComponent x y = .eq from cmpComponent_eq_iff.mpr hxy]
        simp [hxy, ih ys]
      · have hne : cmpComponent x y ≠ .eq := fun hc => hxy (cmpComponent_eq_iff.mp hc)
        cases h : cmpComponent x y with
        | eq => exact absurd h hne
        | lt => simp [hxy]
        | gt => simp [hxy]

theorem stripPre_some_of_pre {pre p : Path} (h : pre <+: p) :
    stripPre pre p = some (p.drop pre.length) := by
  simp [stripPre, h]

theorem stripPre_none_of_not_pre {pre p : Path} (h : ¬ pre <+: p) :
    stripPre pre p = none := by
  simp [stripPre, h]

theorem insertSorted_perm {α : Type} (k : Path) (v : α) :
    ∀ (l : List (Path × α)), (∀ e ∈ l, e.1 ≠ k) →
      List.Perm (insertSorted k v l) ((k, v) :: l)
  | [], _ => by simp [insertSorted]
  | (k', v') :: rest, h => by
    simp only [insertSorted]
    cases hc : pathCmp k k' with
    | lt => exact List.Perm.refl _
    | eq => exact absurd ((pathCmp_eq_iff k k').mp hc).symm (h (k', v') (by simp))
    | gt =>
      have ih := insertSorted_perm k v rest (fun e he => h e (by simp [he]))
      exact List.Perm.trans (ih.cons _) (List.Perm.swap (k, v) (k', v') rest)

theorem mem_insertSorted_self {α : Type} (k : Path) (v : α) :
    ∀ (l : List (Path × α)), (k, v) ∈ insertSorted k v l
  | [] => by simp [insertSorted]
  | (k', v') :: rest => by
    simp only [insertSorted]
    cases hc : pathCmp k k' with
    | lt => simp
    | eq => simp
    | gt => simp [mem_insertSorted_self k v rest]

theorem mem_of_mem_insertSorted {α : Type} {k : Path} {v : α} :
    ∀ {l : List (Path × α)} {x : Path × α},
      x ∈ insertSorted k v l → x = (k, v) ∨ x ∈ l
  | [], x, hx => by simpa [insertSorted] using hx
  | (k', v') :: rest, x, hx => by
    simp only [insertSorted] at hx
    split at hx
    · simp only [List.mem_cons] at hx
      rcases hx with hx | hx | hx
      · exact Or.inl hx
      · exact Or.inr (by simp [hx])
      · exact Or.inr (by simp [hx])
    · simp only [List.mem_cons] at hx
      rcases hx with hx | hx
      · exact Or.inl hx
      · exact Or.inr (by simp [hx])
    · simp only [List.mem_cons] at hx
      rcases hx with hx | hx
      · exact Or.inr (by simp [hx])
      · rcases mem_of_mem_insertSorted hx with hx | hx
        · exact Or.inl hx
        · exact Or.inr (by simp [hx])

theorem removeKey_eq_none {α : Type} (k : Path) :
    ∀ (l : List (Path × α)), (∀ e ∈ l, e.1 ≠ k) → removeKey k l = (none, l)
  | [], _ => rfl
  | (k', v') :: rest, h => by
    have hk : k' ≠ k := h (k', v') (by simp)
    simp only [removeKey, if_neg hk]
    rw [removeKey_eq_none k rest (fun e he => h e (by simp [he]))]

theorem removeKey_insertSorted {α : Type} (k : Path) (v : α) :
    ∀ (l : List (Path × α)), (∀ e ∈ l, e.1 ≠ k) →
      removeKey k (insertSorted k v l) = (some v, l)
  | [], _ => by simp [insertSorted, removeKey]
  | (k', v') :: rest, h => by
    have hk : k' ≠ k := h (k', v') (by simp)
    simp only [insertSorted]
    cases hc : pathCmp k k' with
    | lt => simp [removeKey]
    | eq => exact absurd ((pathCmp_eq_iff k k').mp hc).symm hk
    | gt =>
      simp only [removeKey, if_neg hk]
      rw [removeKey_insertSorted k v rest (fun e he => h e (by simp [he]))]

theorem removeKey_snd_sublist {α : Type} (k : Path) :
    ∀ (l : List (Path × α)), List.Sublist (removeKey k l).2 l
  | [] => by simp [removeKey]
  | (k', v') :: rest => by
    simp only [removeKey]
    by_cases hk : k' = k
    · simp only [if_pos hk]
      exact List.sublist_cons_self _ _
    · simp only [if_neg hk]
      exact List.Sublist.cons₂ _ (removeKey_snd_sublist k rest)

theorem noOverlap_symm : ∀ {a b : Path × Filesystem}, NoOverlap a b → NoOverlap b a :=
  fun h => ⟨h.2, h.1⟩

theorem prefix_comparable {a b p : Path} (ha : a <+: p) (hb : b <+: p) :
    a <+: b ∨ b <+: a :=
  List.prefix_or_prefix_of_prefix ha hb

theorem validate_path_ok {p : Path} (h : is_valid_path p = true) :
    validate_path p = .ok () := by
  simp [validate_path, h]

theorem validate_path_err {p : Path} (h : is_valid_path p = false) :
    validate_path p = .error invalidErr := by
  simp [validate_path, h]

theorem isPrefixOf_false_of_not {a b : Path} (h : ¬ a <+: b) :
    a.isPrefixOf b = false := by
  simp only [Bool.eq_false_iff, ne_eq, List.isPrefixOf_iff_prefix]
  exact h

/-! ### Delegation: an exact/descendant match routes to that backend -/

theorem metadataLoop_deleg {p b : Path} {fs : Filesystem} :
    ∀ {l : List (Path × Filesystem)}, l.Pairwise NoOverlap → (b, fs) ∈ l →
      b <+: p → metadataLoop l p = fs.metadata (p.drop b.length) := by
  intro l
  induction l with
  | nil => intro _ hmem _; cases hmem
  | cons e rest ih =>
    intro hpw hmem hpre
    rcases e with ⟨b', fs'⟩
    rcases List.pairwise_cons.mp hpw with ⟨hhead, htail⟩
    rcases List.mem_cons.mp hmem with he | he
    · injection he with hb hf
      subst hb; subst hf
      simp [metadataLoop, stripPre_some_of_pre hpre]
    · have hno := hhead _ he
      have h1 : ¬ b' <+: p := fun hb' => (prefix_comparable hb' hpre).elim hno.1 hno.2
      have h2 : ¬ p <+: b' := fun hp => hno.2 (hpre.trans hp)
      simp only [metadataLoop, stripPre_none_of_not_pre h1, isPrefixOf_false_of_not h2,
        Bool.false_eq_true, if_false]
      exact ih htail he hpre

theorem openFileLoop_deleg {p b : Path} {fs : Filesystem} {opts : OpenOptions} :
    ∀ {l : List (Path × Filesystem)}, l.Pairwise NoOverlap → (b, fs) ∈ l →
      b <+: p → openFileLoop l p opts = fs.open_file (p.drop b.length) opts := by
  intro l
  induction l with
  | nil => intro _ hmem _; cases hmem
  | cons e rest ih =>
    intro hpw hmem hpre
    rcases e with ⟨b', fs'⟩
    rcases List.pairwise_cons.mp hpw with ⟨hhead, htail⟩
    rcases List.mem_cons.mp hmem with he | he
    · injection he with hb hf
      subst hb; subst hf
      simp [openFileLoop, stripPre_some_of_pre hpre]
    · have hno := hhead _ he
      have h1 : ¬ b' <+: p := fun hb' => (prefix_comparable hb' hpre).elim hno.1 hno.2
      have h2 : ¬ p <+: b' := fun hp => hno.2 (hpre.trans hp)
      simp only [openFileLoop, stripPre_none_of_not_pre h1, isPrefixOf_false_of_not h2,
        Bool.false_eq_true, if_false]
      exact ih htail he hpre

theorem removeFileLoop_deleg {p b : Path} {fs : Filesystem} :
    ∀ {l : List (Path × Filesystem)}, l.Pairwise NoOverlap → (b, fs) ∈ l →
      b <+: p → removeFileLoop l p = fs.remove_file (p.drop b.length) := by
  intro l
  induction l with
  | nil => intro _ hmem _; cases hmem
  | cons e rest ih =>
    intro hpw hmem hpre
    rcases e with ⟨b', fs'⟩
    rcases List.pairwise_cons.mp hpw with ⟨hhead, htail⟩
    rcases List.mem_cons.mp hmem with he | he
    · injection he with hb hf
      subst hb; subst hf
      simp [removeFileLoop, stripPre_some_of_pre hpre]
    · have hno := hhead _ he
      have h1 : ¬ b' <+: p := fun hb' => (prefix_comparable hb' hpre).elim hno.1 hno.2
      have h2 : ¬ p <+: b' := fun hp => hno.2 (hpre.trans hp)
      simp only [removeFileLoop, stripPre_none_of_not_pre h1, isPrefixOf_false_of_not h2,
        Bool.false_eq_true, if_false]
      exact ih htail he hpre

theorem removeDirLoop_deleg {p b : Path} {fs : Filesystem} :
    ∀ {l : List (Path × Filesystem)}, l.Pairwise NoOverlap → (b, fs) ∈ l →
      b <+: p → removeDirLoop l p = fs.remove_dir (p.drop b.length) := by
  intro l
  induction l with
  | nil => intro _ hmem _; cases hmem
  | cons e rest ih =>
    intro hpw hmem hpre
    rcases e with ⟨b', fs'⟩
    rcases List.pairwise_cons.mp hpw with ⟨hhead, htail⟩
    rcases List.mem_cons.mp hmem with he | he
    · injection he with hb hf
      subst hb; subst hf
      simp [removeDirLoop, stripPre_some_of_pre hpre]
    · have hno := hhead _ he
      have h1 : ¬ b' <+: p := fun hb' => (prefix_comparable hb' hpre).elim hno.1 hno.2
      have h2 : ¬ p <+: b' := fun hp => hno.2 (hpre.trans hp)
      simp only [removeDirLoop, stripPre_none_of_not_pre h1, isPrefixOf_false_of_not h2,
        Bool.false_eq_true, if_false]
      exact ih htail he hpre

theorem removeDirAllLoop_deleg {p b : Path} {fs : Filesystem} :
    ∀ {l : List (Path × Filesystem)}, l.Pairwise NoOverlap → (b, fs) ∈ l →
      b <+: p → removeDirAllLoop l p = fs.remove_dir_all (p.drop b.length) := by
  intro l
  induction l with
  | nil => intro _ hmem _; cases hmem
  | cons e rest ih =>
    intro hpw hmem hpre
    rcases e with ⟨b', fs'⟩
    rcases List.pairwise_cons.mp hpw with ⟨hhead, htail⟩
    rcases List.mem_cons.mp hmem with he | he
    · injection he with hb hf
      subst hb; subst hf
      simp [removeDirAllLoop, stripPre_some_of_pre hpre]
    · have hno := hhead _ he
      have h1 : ¬ b' <+: p := fun hb' => (prefix_comparable hb' hpre).elim hno.1 hno.2
      have h2 : ¬ p <+: b' := fun hp => hno.2 (hpre.trans hp)
      simp only [removeDirAllLoop, stripPre_none_of_not_pre h1, isPrefixOf_false_of_not h2,
        Bool.false_eq_true, if_false]
      exact ih htail he hpre

theorem createDirLoop_deleg {p b : Path} {fs : Filesystem} :
    ∀ {l : List (Path × Filesystem)}, l.Pairwise NoOverlap → (b, fs) ∈ l →
      b <+: p → createDirLoop l p = fs.create_dir (p.drop b.length) := by
  intro l
  induction l with
  | nil => intro _ hmem _; cases hmem
  | cons e rest ih =>
    intro hpw hmem hpre
    rcases e with ⟨b', fs'⟩
    rcases List.pairwise_cons.mp hpw with ⟨hhead, htail⟩
    rcases List.mem_cons.mp hmem with he | he
    · injection he with hb hf
      subst hb; subst hf
      simp [createDirLoop, stripPre_some_of_pre hpre]
    · have hno := hhead _ he
      have h1 : ¬ b' <+: p := fun hb' => (prefix_comparable hb' hpre).elim hno.1 hno.2
      simp only [createDirLoop, stripPre_none_of_not_pre h1]
      exact ih htail he hpre

theorem createDirAllLoop_deleg {p b : Path} {fs : Filesystem} :
    ∀ {l : List (Path × Filesystem)}, l.Pairwise NoOverlap → (b, fs) ∈ l →
      b <+: p → createDirAllLoop l p = fs.create_dir_all (p.drop b.length) := by
  intro l
  induction l with
  | nil => intro _ hmem _; cases hmem
  | cons e rest ih =>
    intro hpw hmem hpre
    rcases e with ⟨b', fs'⟩
    rcases List.pairwise_cons.mp hpw with ⟨hhead, htail⟩
    rcases List.mem_cons.mp hmem with he | he
    · injection he with hb hf
      subst hb; subst hf
      simp [createDirAllLoop, stripPre_some_of_pre hpre]
    · have hno := hhead _ he
      have h1 : ¬ b' <+: p := fun hb' => (prefix_comparable hb' hpre).elim hno.1 hno.2
      simp only [createDirAllLoop, stripPre_none_of_not_pre h1]
      exact ih htail he hpre

theorem readDirLoop_deleg {p b : Path} {fs : Filesystem} :
    ∀ {l : List (Path × Filesystem)} (ret : List (Path × Metadata)),
      l.Pairwise NoOverlap → (b, fs) ∈ l → b <+: p →
      readDirLoop p l ret = fs.read_dir (p.drop b.length) := by
  intro l
  induction l with
  | nil => intro _ _ hmem _; cases hmem
  | cons e rest ih =>
    intro ret hpw hmem hpre
    rcases e with ⟨b', fs'⟩
    rcases List.pairwise_cons.mp hpw with ⟨hhead, htail⟩
    rcases List.mem_cons.mp hmem with he | he
    · injection he with hb hf
      subst hb; subst hf
      simp [readDirLoop, stripPre_some_of_pre hpre]
    · have hno := hhead _ he
      have h1 : ¬ b' <+: p := fun hb' => (prefix_comparable hb' hpre).elim hno.1 hno.2
      have h2 : ¬ p <+: b' := fun hp => hno.2 (hpre.trans hp)
      simp only [readDirLoop, stripPre_none_of_not_pre h1, stripPre_none_of_not_pre h2]
      exact ih ret htail he hpre

/-! ### Ancestor matches: the path names a synthesized mount boundary -/

theorem metadataLoop_anc {p : Path} :
    ∀ {l : List (Path × Filesystem)},
      (∀ e ∈ l, ¬ e.1 <+: p) → (∃ e ∈ l, p <+: e.1) →
      metadataLoop l p = .ok VDIR_META := by
  intro l
  induction l with
  | nil => intro _ hex; rcases hex with ⟨e, he, _⟩; cases he
  | cons e rest ih =>
    intro hno hex
    rcases e with ⟨b', fs'⟩
    have h1 : ¬ b' <+: p := hno (b', fs') (List.mem_cons_self _ _)
    simp only [metadataLoop, stripPre_none_of_not_pre h1]
    by_cases h2 : p <+: b'
    · rw [if_pos (List.isPrefixOf_iff_prefix.mpr h2)]
    · rw [if_neg (by simp [isPrefixOf_false_of_not h2])]
      apply ih (fun e he => hno e (by simp [he]))
      rcases hex with ⟨e', he', hp'⟩
      rcases List.mem_cons.mp he' with rfl | he'
      · exact absurd hp' h2
      · exact ⟨e', he', hp'⟩

theorem openFileLoop_anc {p : Path} {opts : OpenOptions} :
    ∀ {l : List (Path × Filesystem)},
      (∀ e ∈ l, ¬ e.1 <+: p) → (∃ e ∈ l, p <+: e.1) →
      openFileLoop l p opts = permission_denied := by
  intro l
  induction l with
  | nil => intro _ hex; rcases hex with ⟨e, he, _⟩; cases he
  | cons e rest ih =>
    intro hno hex
    rcases e with ⟨b', fs'⟩
    have h1 : ¬ b' <+: p := hno (b', fs') (List.mem_cons_self _ _)
    simp only [openFileLoop, stripPre_none_of_not_pre h1]
    by_cases h2 : p <+: b'
    · rw [if_pos (List.isPrefixOf_iff_prefix.mpr h2)]
    · rw [if_neg (by simp [isPrefixOf_false_of_not h2])]
      apply ih (fun e he => hno e (by simp [he]))
      rcases hex with ⟨e', he', hp'⟩
      rcases List.mem_cons.mp he' with rfl | he'
      · exact absurd hp' h2
      · exact ⟨e', he', hp'⟩

theorem removeFileLoop_anc {p : Path} :
    ∀ {l : List (Path × Filesystem)},
      (∀ e ∈ l, ¬ e.1 <+: p) → (∃ e ∈ l, p <+: e.1) →
      removeFileLoop l p = permission_denied := by
  intro l
  induction l with
  | nil => intro _ hex; rcases hex with ⟨e, he, _⟩; cases he
  | cons e rest ih =>
    intro hno hex
    rcases e with ⟨b', fs'⟩
    have h1 : ¬ b' <+: p := hno (b', fs') (List.mem_cons_self _ _)
    simp only [removeFileLoop, stripPre_none_of_not_pre h1]
    by_cases h2 : p <+: b'
    · rw [if_pos (List.isPrefixOf_iff_prefix.mpr h2)]
    · rw [if_neg (by simp [isPrefixOf_false_of_not h2])]
      apply ih (fun e he => hno e (by simp [he]))
      rcases hex with ⟨e', he', hp'⟩
      rcases List.mem_cons.mp he' with rfl | he'
      · exact absurd hp' h2
      · exact ⟨e', he', hp'⟩

theorem removeDirLoop_anc {p : Path} :
    ∀ {l : List (Path × Filesystem)},
      (∀ e ∈ l, ¬ e.1 <+: p) → (∃ e ∈ l, p <+: e.1) →
      removeDirLoop l p = permission_denied := by
  intro l
  induction l with
  | nil => intro _ hex; rcases hex with ⟨e, he, _⟩; cases he
  | cons e rest ih =>
    intro hno hex
    rcases e with ⟨b', fs'⟩
    have h1 : ¬ b' <+: p := hno (b', fs') (List.mem_cons_self _ _)
    simp only [removeDirLoop, stripPre_none_of_not_pre h1]
    by_cases h2 : p <+: b'
    · rw [if_pos (List.isPrefixOf_iff_prefix.mpr h2)]
    · rw [if_neg (by simp [isPrefixOf_false_of_not h2])]
      apply ih (fun e he => hno e (by simp [he]))
      rcases hex with ⟨e', he', hp'⟩
      rcases List.mem_cons.mp he' with rfl | he'
      · exact absurd hp' h2
      · exact ⟨e', he', hp'⟩

theorem removeDirAllLoop_anc {p : Path} :
    ∀ {l : List (Path × Filesystem)},
      (∀ e ∈ l, ¬ e.1 <+: p) → (∃ e ∈ l, p <+: e.1) →
      removeDirAllLoop l p = permission_denied := by
  intro l
  induction l with
  | nil => intro _ hex; rcases hex with ⟨e, he, _⟩; cases he
  | cons e rest ih =>
    intro hno hex
    rcases e with ⟨b', fs'⟩
    have h1 : ¬ b' <+: p := hno (b', fs') (List.mem_cons_self _ _)
    simp only [removeDirAllLoop, stripPre_none_of_not_pre h1]
    by_cases h2 : p <+: b'
    · rw [if_pos (List.isPrefixOf_iff_prefix.mpr h2)]
    · rw [if_neg (by simp [isPrefixOf_false_of_not h2])]
      apply ih (fun e he => hno e (by simp [he]))
      rcases hex with ⟨e', he', hp'⟩
      rcases List.mem_cons.mp he' with rfl | he'
      · exact absurd hp' h2
      · exact ⟨e', he', hp'⟩

/-! ### No match of either kind -/

theorem metadataLoop_nomatch {p : Path} :
    ∀ {l : List (Path × Filesystem)},
      (∀ e ∈ l, ¬ e.1 <+: p ∧ ¬ p <+: e.1) →
      metadataLoop l p = not_found := by
  intro l
  induction l with
  | nil => intro _; rfl
  | cons e rest ih =>
    intro hno
    rcases e with ⟨b', fs'⟩
    have h := hno _ (List.mem_cons_self _ _)
    simp only [metadataLoop, stripPre_none_of_not_pre h.1]
    rw [if_neg (by simp [isPrefixOf_false_of_not h.2])]
    exact ih fun e he => hno e (by simp [he])

theorem openFileLoop_nomatch {p : Path} {opts : OpenOptions} :
    ∀ {l : List (Path × Filesystem)},
      (∀ e ∈ l, ¬ e.1 <+: p ∧ ¬ p <+: e.1) →
      openFileLoop l p opts = not_found := by
  intro l
  induction l with
  | nil => intro _; rfl
  | cons e rest ih =>
    intro hno
    rcases e with ⟨b', fs'⟩
    have h := hno _ (List.mem_cons_self _ _)
    simp only [openFileLoop, stripPre_none_of_not_pre h.1]
    rw [if_neg (by simp [isPrefixOf_false_of_not h.2])]
    exact ih fun e he => hno e (by simp [he])

theorem removeFileLoop_nomatch {p : Path} :
    ∀ {l : List (Path × Filesystem)},
      (∀ e ∈ l, ¬ e.1 <+: p ∧ ¬ p <+: e.1) →
      removeFileLoop l p = not_found := by
  intro l
  induction l with
  | nil => intro _; rfl
  | cons e rest ih =>
    intro hno
    rcases e with ⟨b', fs'⟩
    have h := hno _ (List.mem_cons_self _ _)
    simp only [removeFileLoop, stripPre_none_of_not_pre h.1]
    rw [if_neg (by simp [isPrefixOf_false_of_not h.2])]
    exact ih fun e he => hno e (by simp [he])

theorem removeDirLoop_nomatch {p : Path} :
    ∀ {l : List (Path × Filesystem)},
      (∀ e ∈ l, ¬ e.1 <+: p ∧ ¬ p <+: e.1) →
      removeDirLoop l p = not_found := by
  intro l
  induction l with
  | nil => intro _; rfl
  | cons e rest ih =>
    intro hno
    rcases e with ⟨b', fs'⟩
    have h := hno _ (List.mem_cons_self _ _)
    simp only [removeDirLoop, stripPre_none_of_not_pre h.1]
    rw [if_neg (by simp [isPrefixOf_false_of_not h.2])]
    exact ih fun e he => hno e (by simp [he])

theorem removeDirAllLoop_nomatch {p : Path} :
    ∀ {l : List (Path × Filesystem)},
      (∀ e ∈ l, ¬ e.1 <+: p ∧ ¬ p <+: e.1) →
      removeDirAllLoop l p = not_found := by
  intro l
  induction l with
  | nil => intro _; rfl
  | cons e rest ih =>
    intro hno
    rcases e with ⟨b', fs'⟩
    have h := hno _ (List.mem_cons_self _ _)
    simp only [removeDirAllLoop, stripPre_none_of_not_pre h.1]
    rw [if_neg (by simp [isPrefixOf_false_of_not h.2])]
    exact ih fun e he => hno e (by simp [he])

theorem createDirLoop_noexact {p : Path} :
    ∀ {l : List (Path × Filesystem)},
      (∀ e ∈ l, ¬ e.1 <+: p) →
      createDirLoop l p = permission_denied := by
  intro l
  induction l with
  | nil => intro _; rfl
  | cons e rest ih =>
    intro hno
    rcases e with ⟨b', fs'⟩
    have h := hno _ (List.mem_cons_self _ _)
    simp only [createDirLoop, stripPre_none_of_not_pre h]
    exact ih fun e he => hno e (by simp [he])

theorem createDirAllLoop_noexact {p : Path} :
    ∀ {l : List (Path × Filesystem)},
      (∀ e ∈ l, ¬ e.1 <+: p) →
      createDirAllLoop l p = permission_denied := by
  intro l
  induction l with
  | nil => intro _; rfl
  | cons e rest ih =>
    intro hno
    rcases e with ⟨b', fs'⟩
    have h := hno _ (List.mem_cons_self _ _)
    simp only [createDirAllLoop, stripPre_none_of_not_pre h]
    exact ih fun e he => hno e (by simp [he])

/-! ### The `read_dir` merge of synthesized boundary entries -/

theorem insertSorted_ne_nil {α : Type} (k : Path) (v : α) :
    ∀ (l : List (Path × α)), insertSorted k v l ≠ []
  | [] => by simp [insertSorted]
  | (k', v') :: rest => by
    simp only [insertSorted]
    cases pathCmp k k' <;> simp

theorem ancEntries_cons_pos {p b : Path} {fs : Filesystem}
    {l : List (Path × Filesystem)} (h : p <+: b) :
    ancEntries p ((b, fs) :: l) = (b.drop p.length, VDIR_META) :: ancEntries p l := by
  simp [ancEntries, List.filter_cons, List.isPrefixOf_iff_prefix.mpr h]

theorem ancEntries_cons_neg {p b : Path} {fs : Filesystem}
    {l : List (Path × Filesystem)} (h : ¬ p <+: b) :
    ancEntries p ((b, fs) :: l) = ancEntries p l := by
  simp [ancEntries, List.filter_cons, isPrefixOf_false_of_not h]

theorem eq_of_prefix_drop_eq {p a b : Path} (ha : p <+: a) (hb : p <+: b)
    (h : a.drop p.length = b.drop p.length) : a = b := by
  obtain ⟨ta, rfl⟩ := ha
  obtain ⟨tb, rfl⟩ := hb
  rw [List.drop_left, List.drop_left] at h
  rw [h]

theorem ancEntries_keys_nodup {p : Path} :
    ∀ {l : List (Path × Filesystem)}, l.Pairwise NoOverlap →
      ((ancEntries p l).map Prod.fst).Nodup := by
  intro l
  induction l with
  | nil => intro _; simp [ancEntries]
  | cons e rest ih =>
    intro hpw
    rcases List.pairwise_cons.mp hpw with ⟨hhead, htail⟩
    rcases e with ⟨b, fs⟩
    by_cases h2 : p <+: b
    · rw [ancEntries_cons_pos h2]
      simp only [List.map_cons, List.nodup_cons]
      refine ⟨?_, ih htail⟩
      intro hmem
      simp only [ancEntries, List.map_map, List.mem_map, List.mem_filter,
        Function.comp, List.isPrefixOf_iff_prefix] at hmem
      obtain ⟨x, ⟨hx, hpx⟩, hdrop⟩ := hmem
      have hxb : x.1 = b := eq_of_prefix_drop_eq hpx h2 hdrop
      exact (hhead x hx).1 (hxb ▸ List.prefix_refl b)
    · rw [ancEntries_cons_neg h2]
      exact ih htail

theorem mem_ancEntries {p : Path} {l : List (Path × Filesystem)} {k : Path}
    {v : Metadata} :
    (k, v) ∈ ancEntries p l ↔
      v = VDIR_META ∧ ∃ e ∈ l, p <+: e.1 ∧ e.1.drop p.length = k := by
  simp only [ancEntries, List.mem_map, List.mem_filter, Prod.mk.injEq,
    List.isPrefixOf_iff_prefix]
  constructor
  · rintro ⟨x, ⟨hx, hpx⟩, hk, hv⟩
    exact ⟨hv.symm, x, hx, hpx, hk⟩
  · rintro ⟨hv, x, hx, hpx, hk⟩
    exact ⟨x, ⟨hx, hpx⟩, hk, hv.symm⟩

theorem ancEntries_length {p : Path} {l : List (Path × Filesystem)} :
    (ancEntries p l).length = (l.filter fun e => p.isPrefixOf e.1).length := by
  simp [ancEntries]

theorem readDirLoop_anc {p : Path} :
    ∀ {l : List (Path × Filesystem)} (ret : List (Path × Metadata)),
      (∀ e ∈ l, ¬ e.1 <+: p) →
      ((ret ++ ancEntries p l).map Prod.fst).Nodup →
      ∃ m, readDirLoop p l ret =
          (if (ret ++ ancEntries p l).isEmpty then not_found else .ok m) ∧
        List.Perm m (ret ++ ancEntries p l) := by
  intro l
  induction l with
  | nil =>
    intro ret _ _
    refine ⟨ret, ?_, by simp [ancEntries]⟩
    simp [readDirLoop, ancEntries]
  | cons e rest ih =>
    intro ret hno hnd
    rcases e with ⟨b', fs'⟩
    have h1 : ¬ b' <+: p := hno (b', fs') (List.mem_cons_self _ _)
    have hno' : ∀ e ∈ rest, ¬ e.1 <+: p := fun e he => hno e (List.mem_cons_of_mem _ he)
    by_cases h2 : p <+: b'
    · rw [ancEntries_cons_pos h2] at hnd ⊢
      have hfresh : ∀ x ∈ ret, x.1 ≠ b'.drop p.length := by
        intro x hx hxk
        rw [List.map_append, List.nodup_append] at hnd
        exact hnd.2.2 (List.mem_map_of_mem _ hx) (by simp [hxk])
      have hperm : List.Perm (insertSorted (b'.drop p.length) VDIR_META ret)
          ((b'.drop p.length, VDIR_META) :: ret) :=
        insertSorted_perm _ _ ret hfresh
      have hpermAll : List.Perm
          (insertSorted (b'.drop p.length) VDIR_META ret ++ ancEntries p rest)
          (ret ++ (b'.drop p.length, VDIR_META) :: ancEntries p rest) :=
        List.Perm.trans (hperm.append_right _) List.perm_middle.symm
      have hnd' : ((insertSorted (b'.drop p.length) VDIR_META ret ++
          ancEntries p rest).map Prod.fst).Nodup :=
        ((hpermAll.map Prod.fst).nodup_iff).mpr hnd
      obtain ⟨m, hm, hmp⟩ := ih (insertSorted (b'.drop p.length) VDIR_META ret) hno' hnd'
      have c2 : (insertSorted (b'.drop p.length) VDIR_META ret ++
          ancEntries p rest).isEmpty = false := by
        cases hr : insertSorted (b'.drop p.length) VDIR_META ret with
        | nil => exact absurd hr (insertSorted_ne_nil _ _ _)
        | cons a as => rfl
      have c1 : (ret ++ (b'.drop p.length, VDIR_META) :: ancEntries p rest).isEmpty
          = false := by
        cases ret <;> rfl
      rw [c2] at hm
      simp only [Bool.false_eq_true, if_false] at hm
      refine ⟨m, ?_, hmp.trans hpermAll⟩
      rw [c1]
      simp only [Bool.false_eq_true, if_false]
      simp only [readDirLoop, stripPre_none_of_not_pre h1, stripPre_some_of_pre h2]
      exact hm
    · rw [ancEntries_cons_neg h2] at hnd ⊢
      obtain ⟨m, hm, hmp⟩ := ih ret hno' hnd
      refine ⟨m, ?_, hmp⟩
      simp only [readDirLoop, stripPre_none_of_not_pre h1, stripPre_none_of_not_pre h2]
      exact hm

/-! ### Unfolding the validation prelude of each operation -/

theorem metadata_eq_loop {st : VirtualFs} {p : Path} (h : is_valid_path p = true) :
    st.metadata p = metadataLoop st.mounted p := by
  simp [VirtualFs.metadata, validate_path_ok h]

theorem open_file_eq_loop {st : VirtualFs} {p : Path} {opts : OpenOptions}
    (h : is_valid_path p = true) :
    st.open_file p opts = openFileLoop st.mounted p opts := by
  simp [VirtualFs.open_file, validate_path_ok h]

theorem remove_file_eq_loop {st : VirtualFs} {p : Path} (h : is_valid_path p = true) :
    st.remove_file p = removeFileLoop st.mounted p := by
  simp [VirtualFs.remove_file, validate_path_ok h]

theorem read_dir_eq_loop {st : VirtualFs} {p : Path} (h : is_valid_path p = true) :
    st.read_dir p = readDirLoop p st.mounted [] := by
  simp [VirtualFs.read_dir, validate_path_ok h]

theorem create_dir_eq_loop {st : VirtualFs} {p : Path} (h : is_valid_path p = true) :
    st.create_dir p = createDirLoop st.mounted p := by
  simp [VirtualFs.create_dir, validate_path_ok h]

theorem create_dir_all_eq_loop {st : VirtualFs} {p : Path} (h : is_valid_path p = true) :
    st.create_dir_all p = createDirAllLoop st.mounted p := by
  simp [VirtualFs.create_dir_all, validate_path_ok h]

theorem remove_dir_eq_loop {st : VirtualFs} {p : Path} (h : is_valid_path p = true) :
    st.remove_dir p = removeDirLoop st.mounted p := by
  simp [VirtualFs.remove_dir, validate_path_ok h]

theorem remove_dir_all_eq_loop {st : VirtualFs} {p : Path} (h : is_valid_path p = true) :
    st.remove_dir_all p = removeDirAllLoop st.mounted p := by
  simp [VirtualFs.remove_dir_all, validate_path_ok h]

/-! ### Characterizing `mount` -/

theorem mount_invalid {st : VirtualFs} {v : Path} {fs : Filesystem}
    (hvf : is_valid_path v = false) : st.mount v fs = .error .InvalidPath := by
  simp [VirtualFs.mount, hvf]

theorem mount_overlap {st : VirtualFs} {v : Path} {fs : Filesystem}
    (hv : is_valid_path v = true)
    (hov : ∃ e ∈ st.mounted, e.1 <+: v ∨ v <+: e.1) :
    st.mount v fs = .error .LocationOverlap := by
  have hany : (st.mounted.any fun e => e.1.isPrefixOf v || v.isPrefixOf e.1) = true := by
    rw [List.any_eq_true]
    obtain ⟨e, he, hor⟩ := hov
    exact ⟨e, he, by simpa [List.isPrefixOf_iff_prefix] using hor⟩
  simp [VirtualFs.mount, hv, hany]

theorem mount_ok_of {st : VirtualFs} {v : Path} {fs : Filesystem}
    (hv : is_valid_path v = true)
    (hno : ∀ e ∈ st.mounted, ¬ e.1 <+: v ∧ ¬ v <+: e.1) :
    st.mount v fs = .ok ⟨insertSorted v fs st.mounted⟩ := by
  have hanyf : (st.mounted.any fun e => e.1.isPrefixOf v || v.isPrefixOf e.1) = false := by
    rw [List.any_eq_false]
    intro e he
    simp only [Bool.or_eq_true, List.isPrefixOf_iff_prefix]
    push_neg
    exact hno e he
  simp [VirtualFs.mount, hv, hanyf]

theorem mount_ok_inv {st st' : VirtualFs} {v : Path} {fs : Filesystem}
    (h : st.mount v fs = .ok st') :
    is_valid_path v = true ∧
    (∀ e ∈ st.mounted, ¬ e.1 <+: v ∧ ¬ v <+: e.1) ∧
    st' = ⟨insertSorted v fs st.mounted⟩ := by
  cases hv : is_valid_path v with
  | false =>
    rw [mount_invalid hv] at h
    cases h
  | true =>
    by_cases hany : (st.mounted.any fun e => e.1.isPrefixOf v || v.isPrefixOf e.1) = true
    · rw [show st.mount v fs = .error .LocationOverlap from by
        simp [VirtualFs.mount, hv, hany]] at h
      cases h
    · have hanyf := Bool.eq_false_iff.mpr hany
      have hno : ∀ e ∈ st.mounted, ¬ e.1 <+: v ∧ ¬ v <+: e.1 := by
        intro e he
        have hne := List.any_eq_false.mp hanyf e he
        simp only [Bool.or_eq_true, List.isPrefixOf_iff_prefix] at hne
        push_neg at hne
        exact hne
      rw [mount_ok_of hv hno] at h
      injection h with h
      exact ⟨rfl, hno, h.symm⟩

theorem reachable_tableInv : ∀ {st : VirtualFs}, Reachable st → TableInv st := by
  intro st h
  induction h with
  | empty => exact List.Pairwise.nil
  | @mountOk st0 st1 v fs hr hok ih =>
    obtain ⟨hv, hno, rfl⟩ := mount_ok_inv hok
    have hno2 : ∀ e ∈ st0.mounted, NoOverlap (v, fs) e :=
      fun e he => ⟨(hno e he).2, (hno e he).1⟩
    have hfresh : ∀ e ∈ st0.mounted, e.1 ≠ v := by
      intro e he heq
      apply (hno e he).1
      rw [heq]
    have hperm := insertSorted_perm v fs st0.mounted hfresh
    have hsymm : ∀ {x y : Path × Filesystem}, NoOverlap x y → NoOverlap y x :=
      fun hh => ⟨hh.2, hh.1⟩
    show (insertSorted v fs st0.mounted).Pairwise NoOverlap
    exact (hperm.pairwise_iff hsymm).mpr (List.pairwise_cons.mpr ⟨hno2, ih⟩)
  | @unmountStep st0 v hr ih =>
    exact List.Pairwise.sublist (removeKey_snd_sublist v st0.mounted) ih
  | unmountAll hr ih => exact List.Pairwise.nil

theorem pairwise_filter_le_one {p : Path} :
    ∀ {l : List (Path × Filesystem)}, l.Pairwise NoOverlap →
      (l.filter fun e => e.1.isPrefixOf p).length ≤ 1 := by
  intro l
  induction l with
  | nil => intro _; simp
  | cons e rest ih =>
    intro hpw
    rcases List.pairwise_cons.mp hpw with ⟨hhead, htail⟩
    rw [List.filter_cons]
    by_cases hq : e.1.isPrefixOf p = true
    · rw [if_pos hq]
      have hnil : (rest.filter fun x => x.1.isPrefixOf p) = [] := by
        rw [List.filter_eq_nil_iff]
        intro x hx hxq
        have h1 := List.isPrefixOf_iff_prefix.mp hq
        have h2 := List.isPrefixOf_iff_prefix.mp hxq
        exact (prefix_comparable h1 h2).elim (fun hh => (hhead x hx).1 hh)
          (fun hh => (hhead x hx).2 hh)
      simp [hnil]
    · have hqf : e.1.isPrefixOf p = false := Bool.eq_false_iff.mpr hq
      rw [if_neg (by simp [hqf])]
      exact ih htail

/-! ### Claim theorems -/

/-- C1: on a table satisfying the no-overlap invariant, every operation on a
well-formed path that has a mounted base as a leading-segment prefix returns
exactly the bound backend's corresponding operation applied to the path with
that base stripped; since the result is fully determined by that one binding,
no other binding's backend is consulted. -/
theorem c1_exact_match_delegates (st : VirtualFs) (b p : Path) (fs : Filesystem)
    (opts : OpenOptions) (hinv : TableInv st) (hmem : (b, fs) ∈ st.mounted)
    (hval : is_valid_path p = true) (hpre : b <+: p) :
    st.metadata p = fs.metadata (p.drop b.length) ∧
    st.open_file p opts = fs.open_file (p.drop b.length) opts ∧
    st.remove_file p = fs.remove_file (p.drop b.length) ∧
    st.read_dir p = fs.read_dir (p.drop b.length) ∧
    st.create_dir p = fs.create_dir (p.drop b.length) ∧
    st.create_dir_all p = fs.create_dir_all (p.drop b.length) ∧
    st.remove_dir p = fs.remove_dir (p.drop b.length) ∧
    st.remove_dir_all p = fs.remove_dir_all (p.drop b.length) := by
  refine ⟨?_, ?_, ?_, ?_, ?_, ?_, ?_, ?_⟩
  · rw [metadata_eq_loop hval]; exact metadataLoop_deleg hinv hmem hpre
  · rw [open_file_eq_loop hval]; exact openFileLoop_deleg hinv hmem hpre
  · rw [remove_file_eq_loop hval]; exact removeFileLoop_deleg hinv hmem hpre
  · rw [read_dir_eq_loop hval]; exact readDirLoop_deleg [] hinv hmem hpre
  · rw [create_dir_eq_loop hval]; exact createDirLoop_deleg hinv hmem hpre
  · rw [create_dir_all_eq_loop hval]; exact createDirAllLoop_deleg hinv hmem hpre
  · rw [remove_dir_eq_loop hval]; exact removeDirLoop_deleg hinv hmem hpre
  · rw [remove_dir_all_eq_loop hval]; exact removeDirAllLoop_deleg hinv hmem hpre

/-- Witness for C1 at a concrete one-binding table and path. -/
theorem c1_exact_match_delegates_witness :
    (VirtualFs.mk [([Component.normal "m"], testFs)]).metadata
        [Component.normal "m", Component.normal "x"] =
      testFs.metadata [Component.normal "x"] ∧
    (VirtualFs.mk [([Component.normal "m"], testFs)]).open_file
        [Component.normal "m", Component.normal "x"] 3 =
      testFs.open_file [Component.normal "x"] 3 ∧
    (VirtualFs.mk [([Component.normal "m"], testFs)]).remove_file
        [Component.normal "m", Component.normal "x"] =
      testFs.remove_file [Component.normal "x"] ∧
    (VirtualFs.mk [([Component.normal "m"], testFs)]).read_dir
        [Component.normal "m", Component.normal "x"] =
      testFs.read_dir [Component.normal "x"] ∧
    (VirtualFs.mk [([Component.normal "m"], testFs)]).create_dir
        [Component.normal "m", Component.normal "x"] =
      testFs.create_dir [Component.normal "x"] ∧
    (VirtualFs.mk [([Component.normal "m"], testFs)]).create_dir_all
        [Component.normal "m", Component.normal "x"] =
      testFs.create_dir_all [Component.normal "x"] ∧
    (VirtualFs.mk [([Component.normal "m"], testFs)]).remove_dir
        [Component.normal "m", Component.normal "x"] =
      testFs.remove_dir [Component.normal "x"] ∧
    (VirtualFs.mk [([Component.normal "m"], testFs)]).remove_dir_all
        [Component.normal "m", Component.normal "x"] =
      testFs.remove_dir_all [Component.normal "x"] :=
  c1_exact_match_delegates ⟨[([Component.normal "m"], testFs)]⟩
    [Component.normal "m"] [Component.normal "m", Component.normal "x"] testFs 3
    (by decide) (by simp) (by decide) (by decide)

/-- C6: `metadata` on a well-formed boundary path — one that is a strict
ancestor of some mounted base and has no mounted base as its own prefix —
returns the fixed synthesized directory metadata: read-only, directory
type, and no length or timestamps. -/
theorem c6_boundary_metadata (st : VirtualFs) (p : Path)
    (hval : is_valid_path p = true)
    (hnopre : ∀ e ∈ st.mounted, ¬ e.1 <+: p)
    (hanc : ∃ e ∈ st.mounted, p <+: e.1 ∧ p ≠ e.1) :
    st.metadata p = .ok VDIR_META ∧
    VDIR_META.is_readonly = true ∧ VDIR_META.file_type = DIRECTORY ∧
    VDIR_META.len = none ∧ VDIR_META.created = none ∧
    VDIR_META.accessed = none ∧ VDIR_META.modified = none := by
  refine ⟨?_, rfl, rfl, rfl, rfl, rfl, rfl⟩
  rw [metadata_eq_loop hval]
  obtain ⟨e, he, hp, _⟩ := hanc
  exact metadataLoop_anc hnopre ⟨e, he, hp⟩

/-- Witness for C6: a mount at `a/b` queried at its ancestor `a`. -/
theorem c6_boundary_metadata_witness :
    (VirtualFs.mk [([Component.normal "a", Component.normal "b"], testFs)]).metadata
        [Component.normal "a"] = .ok VDIR_META ∧
    VDIR_META.is_readonly = true ∧ VDIR_META.file_type = DIRECTORY ∧
    VDIR_META.len = none ∧ VDIR_META.created = none ∧
    VDIR_META.accessed = none ∧ VDIR_META.modified = none :=
  c6_boundary_metadata ⟨[([Component.normal "a", Component.normal "b"], testFs)]⟩
    [Component.normal "a"] (by decide) (by decide) (by decide)

/-- C7: for a well-formed path with no mounted base as its prefix — if some
base lies strictly below it (ancestor match), `open_file`, `remove_file`,
`remove_dir` and `remove_dir_all` fail permission-denied; if no binding
matches either way, the query/remove family fails not-found; and the create
family fails permission-denied in both cases. -/
theorem c7_boundary_and_no_match_errors (st : VirtualFs) (p : Path)
    (opts : OpenOptions) (hval : is_valid_path p = true)
    (hnopre : ∀ e ∈ st.mounted, ¬ e.1 <+: p) :
    ((∃ e ∈ st.mounted, p <+: e.1) →
      st.open_file p opts = .error ⟨.permissionDenied, ""⟩ ∧
      st.remove_file p = .error ⟨.permissionDenied, ""⟩ ∧
      st.remove_dir p = .error ⟨.permissionDenied, ""⟩ ∧
      st.remove_dir_all p = .error ⟨.permissionDenied, ""⟩) ∧
    ((∀ e ∈ st.mounted, ¬ p <+: e.1) →
      st.metadata p = .error ⟨.notFound, ""⟩ ∧
      st.open_file p opts = .error ⟨.notFound, ""⟩ ∧
      st.remove_file p = .error ⟨.notFound, ""⟩ ∧
      st.remove_dir p = .error ⟨.notFound, ""⟩ ∧
      st.remove_dir_all p = .error ⟨.notFound, ""⟩) ∧
    (st.create_dir p = .error ⟨.permissionDenied, ""⟩ ∧
      st.create_dir_all p = .error ⟨.permissionDenied, ""⟩) := by
  refine ⟨?_, ?_, ?_, ?_⟩
  · intro hanc
    refine ⟨?_, ?_, ?_, ?_⟩
    · rw [open_file_eq_loop hval]; exact openFileLoop_anc hnopre hanc
    · rw [remove_file_eq_loop hval]; exact removeFileLoop_anc hnopre hanc
    · rw [remove_dir_eq_loop hval]; exact removeDirLoop_anc hnopre hanc
    · rw [remove_dir_all_eq_loop hval]; exact removeDirAllLoop_anc hnopre hanc
  · intro hnosub
    have hno : ∀ e ∈ st.mounted, ¬ e.1 <+: p ∧ ¬ p <+: e.1 :=
      fun e he => ⟨hnopre e he, hnosub e he⟩
    refine ⟨?_, ?_, ?_, ?_, ?_⟩
    · rw [metadata_eq_loop hval]; exact metadataLoop_nomatch hno
    · rw [open_file_eq_loop hval]; exact openFileLoop_nomatch hno
    · rw [remove_file_eq_loop hval]; exact removeFileLoop_nomatch hno
    · rw [remove_dir_eq_loop hval]; exact removeDirLoop_nomatch hno
    · rw [remove_dir_all_eq_loop hval]; exact removeDirAllLoop_nomatch hno
  · rw [create_dir_eq_loop hval]; exact createDirLoop_noexact hnopre
  · rw [create_dir_all_eq_loop hval]; exact createDirAllLoop_noexact hnopre

/-- Witness for C7 at a boundary path (mount below) and at an empty table. -/
theorem c7_boundary_and_no_match_errors_witness :
    ((VirtualFs.mk [([Component.normal "a", Component.normal "b"], testFs)]).open_file
        [Component.normal "a"] 1 = .error ⟨.permissionDenied, ""⟩ ∧
      (VirtualFs.mk [([Component.normal "a", Component.normal "b"], testFs)]).remove_file
        [Component.normal "a"] = .error ⟨.permissionDenied, ""⟩ ∧
      (VirtualFs.mk [([Component.normal "a", Component.normal "b"], testFs)]).remove_dir
        [Component.normal "a"] = .error ⟨.permissionDenied, ""⟩ ∧
      (VirtualFs.mk [([Component.normal "a", Component.normal "b"], testFs)]).remove_dir_all
        [Component.normal "a"] = .error ⟨.permissionDenied, ""⟩) ∧
    ((VirtualFs.mk []).metadata [Component.normal "a"] = .error ⟨.notFound, ""⟩ ∧
      (VirtualFs.mk []).open_file [Component.normal "a"] 1 = .error ⟨.notFound, ""⟩ ∧
      (VirtualFs.mk []).remove_file [Component.normal "a"] = .error ⟨.notFound, ""⟩ ∧
      (VirtualFs.mk []).remove_dir [Component.normal "a"] = .error ⟨.notFound, ""⟩ ∧
      (VirtualFs.mk []).remove_dir_all [Component.normal "a"] = .error ⟨.notFound, ""⟩) ∧
    ((VirtualFs.mk []).create_dir [Component.normal "a"] = .error ⟨.permissionDenied, ""⟩ ∧
      (VirtualFs.mk []).create_dir_all [Component.normal "a"]
        = .error ⟨.permissionDenied, ""⟩) :=
  ⟨(c7_boundary_and_no_match_errors
      ⟨[([Component.normal "a", Component.normal "b"], testFs)]⟩
      [Component.normal "a"] 1 (by decide) (by decide)).1 (by decide),
   (c7_boundary_and_no_match_errors ⟨[]⟩ [Component.normal "a"] 1
      (by decide) (by simp)).2.1 (by simp),
   (c7_boundary_and_no_match_errors ⟨[]⟩ [Component.normal "a"] 1
      (by decide) (by simp)).2.2⟩

/-- C8: every operation given a path with a non-plain component (root,
drive prefix, current-dir or parent-dir marker) fails with the invalid-input
error, whatever is mounted and before any backend is consulted: the result
does not depend on the table, backend, or OS state at all. -/
theorem c8_invalid_path_rejected (p : Path) (hbad : is_valid_path p = false)
    (st : VirtualFs) (opts : OpenOptions) (os : OsEnv) (sfs : StdFs) :
    st.metadata p = .error invalidErr ∧
    st.open_file p opts = .error invalidErr ∧
    st.remove_file p = .error invalidErr ∧
    st.read_dir p = .error invalidErr ∧
    st.create_dir p = .error invalidErr ∧
    st.create_dir_all p = .error invalidErr ∧
    st.remove_dir p = .error invalidErr ∧
    st.remove_dir_all p = .error invalidErr ∧
    StdFs.read_dir os sfs p = .error invalidErr := by
  have hv := validate_path_err hbad
  exact ⟨by simp [VirtualFs.metadata, hv], by simp [VirtualFs.open_file, hv],
    by simp [VirtualFs.remove_file, hv], by simp [VirtualFs.read_dir, hv],
    by simp [VirtualFs.create_dir, hv], by simp [VirtualFs.create_dir_all, hv],
    by simp [VirtualFs.remove_dir, hv], by simp [VirtualFs.remove_dir_all, hv],
    by simp [StdFs.read_dir, hv]⟩

/-- Witness for C8: a parent-dir path is rejected even with a backend
mounted at the empty base, which would otherwise match every path. -/
theorem c8_invalid_path_rejected_witness :
    (VirtualFs.mk [([], testFs)]).metadata [Component.parentDir, Component.normal "etc"]
      = .error invalidErr ∧
    (VirtualFs.mk [([], testFs)]).open_file [Component.parentDir, Component.normal "etc"] 1
      = .error invalidErr ∧
    (VirtualFs.mk [([], testFs)]).remove_file [Component.parentDir, Component.normal "etc"]
      = .error invalidErr ∧
    (VirtualFs.mk [([], testFs)]).read_dir [Component.parentDir, Component.normal "etc"]
      = .error invalidErr ∧
    (VirtualFs.mk [([], testFs)]).create_dir [Component.parentDir, Component.normal "etc"]
      = .error invalidErr ∧
    (VirtualFs.mk [([], testFs)]).create_dir_all [Component.parentDir, Component.normal "etc"]
      = .error invalidErr ∧
    (VirtualFs.mk [([], testFs)]).remove_dir [Component.parentDir, Component.normal "etc"]
      = .error invalidErr ∧
    (VirtualFs.mk [([], testFs)]).remove_dir_all [Component.parentDir, Component.normal "etc"]
      = .error invalidErr ∧
    StdFs.read_dir ⟨fun _ => .ok []⟩ ⟨[]⟩ [Component.parentDir, Component.normal "etc"]
      = .error invalidErr :=
  c8_invalid_path_rejected [Component.parentDir, Component.normal "etc"] (by decide)
    ⟨[([], testFs)]⟩ 1 ⟨fun _ => .ok []⟩ ⟨[]⟩

/-- C10: `TRUNCATE` and `CREATE_NEW` have the same bit representation
(`CREATE_NEW = TRUNCATE | WRITE = TRUNCATE`, without the `CREATE` bit), so
containment of one is containment of the other for every options value, and
`StdFs::open_file` necessarily sets its `truncate` and `create_new` flags
together. -/
theorem c10_truncate_createnew_alias :
    TRUNCATE = CREATE_NEW ∧
    optsContains CREATE_NEW CREATE = false ∧
    (∀ opts : OpenOptions, optsContains opts TRUNCATE = optsContains opts CREATE_NEW) ∧
    (∀ opts : OpenOptions, (stdOpenConfig opts).truncate = (stdOpenConfig opts).createNew) :=
  ⟨by decide, by decide, fun _ => rfl, fun _ => rfl⟩

/-- C3: `mount` fails invalid-path exactly when the base is not well formed;
a well-formed base fails location-overlap exactly when it is prefix-related
to some existing base; otherwise the binding is inserted. Mounting the same
base twice fails the second time. -/
theorem c3_mount_error_precedence (st : VirtualFs) (v : Path) (fs : Filesystem) :
    (st.mount v fs = .error .InvalidPath ↔ is_valid_path v = false) ∧
    (is_valid_path v = true →
      (st.mount v fs = .error .LocationOverlap ↔
        ∃ e ∈ st.mounted, e.1 <+: v ∨ v <+: e.1)) ∧
    (is_valid_path v = true → (∀ e ∈ st.mounted, ¬ e.1 <+: v ∧ ¬ v <+: e.1) →
      ∃ st', st.mount v fs = .ok st' ∧ (v, fs) ∈ st'.mounted) ∧
    (∀ (st' : VirtualFs) (fs2 : Filesystem), st.mount v fs = .ok st' →
      st'.mount v fs2 = .error .LocationOverlap) := by
  refine ⟨?_, ?_, ?_, ?_⟩
  · constructor
    · intro h
      cases hv : is_valid_path v with
      | false => rfl
      | true =>
        exfalso
        by_cases hany : (st.mounted.any fun e => e.1.isPrefixOf v || v.isPrefixOf e.1) = true
        · rw [show st.mount v fs = .error .LocationOverlap from by
            simp [VirtualFs.mount, hv, hany]] at h
          simp at h
        · have hanyf := Bool.eq_false_iff.mpr hany
          rw [show st.mount v fs = .ok ⟨insertSorted v fs st.mounted⟩ from by
            simp [VirtualFs.mount, hv, hanyf]] at h
          simp at h
    · intro h
      exact mount_invalid h
  · intro hv
    constructor
    · intro h
      by_contra hnex
      push_neg at hnex
      rw [mount_ok_of hv hnex] at h
      simp at h
    · exact mount_overlap hv
  · intro hv hno
    exact ⟨⟨insertSorted v fs st.mounted⟩, mount_ok_of hv hno,
      mem_insertSorted_self v fs st.mounted⟩
  · intro st' fs2 hok
    obtain ⟨hv, _, rfl⟩ := mount_ok_inv hok
    exact mount_overlap hv
      ⟨(v, fs), mem_insertSorted_self v fs st.mounted, Or.inl (List.prefix_refl v)⟩

/-- Witness for C3: a parent-dir base is invalid; a fresh base mounts and is
inserted; remounting the identical base fails with location overlap. -/
theorem c3_mount_error_precedence_witness :
    (VirtualFs.mk []).mount [Component.parentDir] testFs = .error .InvalidPath ∧
    (∃ st', (VirtualFs.mk []).mount [Component.normal "a"] testFs = .ok st' ∧
      ([Component.normal "a"], testFs) ∈ st'.mounted) ∧
    (VirtualFs.mk [([Component.normal "a"], testFs)]).mount [Component.normal "a"] testFs2
      = .error .LocationOverlap :=
  ⟨(c3_mount_error_precedence ⟨[]⟩ [Component.parentDir] testFs).1.mpr (by decide),
   (c3_mount_error_precedence ⟨[]⟩ [Component.normal "a"] testFs).2.2.1
     (by decide) (by simp),
   (c3_mount_error_precedence ⟨[]⟩ [Component.normal "a"] testFs).2.2.2
     ⟨[([Component.normal "a"], testFs)]⟩ testFs2 (by rfl)⟩

/-- C4: every table reachable from the empty table through mount, unmount and
unmount-all keeps all bases pairwise prefix-free (and so pairwise distinct);
consequently at most one binding can exact/descendant-match any given path. -/
theorem c4_reachable_no_overlap (st : VirtualFs) (h : Reachable st) :
    TableInv st ∧
    ∀ p : Path, (st.mounted.filter fun e => e.1.isPrefixOf p).length ≤ 1 :=
  ⟨reachable_tableInv h, fun _ => pairwise_filter_le_one (reachable_tableInv h)⟩

/-- Witness for C4 on the table reached by mounting `a` then `b`. -/
theorem c4_reachable_no_overlap_witness :
    TableInv ⟨[([Component.normal "a"], testFs), ([Component.normal "b"], testFs2)]⟩ ∧
    ((VirtualFs.mk [([Component.normal "a"], testFs),
        ([Component.normal "b"], testFs2)]).mounted.filter
      fun e => e.1.isPrefixOf [Component.normal "a", Component.normal "x"]).length ≤ 1 := by
  have h1 : (VirtualFs.mk []).mount [Component.normal "a"] testFs
      = .ok ⟨[([Component.normal "a"], testFs)]⟩ := by rfl
  have h2 : (VirtualFs.mk [([Component.normal "a"], testFs)]).mount
      [Component.normal "b"] testFs2
      = .ok ⟨[([Component.normal "a"], testFs), ([Component.normal "b"], testFs2)]⟩ := by rfl
  have hreach := Reachable.mountOk (Reachable.mountOk Reachable.empty h1) h2
  exact ⟨(c4_reachable_no_overlap _ hreach).1, (c4_reachable_no_overlap _ hreach).2 _⟩

/-- C9: unmounting a base just mounted returns exactly that backend and the
exact previous table state (hence a state observably identical for every
operation); unmounting an absent base returns `none` and leaves the table
unchanged. -/
theorem c9_unmount_inverse :
    (∀ (st st' : VirtualFs) (b : Path) (fs : Filesystem),
      st.mount b fs = .ok st' → st'.unmount b = (some fs, st)) ∧
    (∀ (st : VirtualFs) (b : Path), (∀ e ∈ st.mounted, e.1 ≠ b) →
      st.unmount b = (none, st)) := by
  constructor
  · intro st st' b fs hok
    obtain ⟨hv, hno, rfl⟩ := mount_ok_inv hok
    have hfresh : ∀ e ∈ st.mounted, e.1 ≠ b := by
      intro e he heq
      apply (hno e he).1
      rw [heq]
    show ((removeKey b (insertSorted b fs st.mounted)).1,
        (⟨(removeKey b (insertSorted b fs st.mounted)).2⟩ : VirtualFs)) = (some fs, st)
    rw [removeKey_insertSorted b fs st.mounted hfresh]
  · intro st b hfresh
    show ((removeKey b st.mounted).1,
        (⟨(removeKey b st.mounted).2⟩ : VirtualFs)) = (none, st)
    rw [removeKey_eq_none b st.mounted hfresh]

/-- Witness for C9: mount then unmount at `a` restores the empty table, and
unmounting from the empty table is a no-op returning `none`. -/
theorem c9_unmount_inverse_witness :
    (VirtualFs.mk [([Component.normal "a"], testFs)]).unmount [Component.normal "a"]
      = (some testFs, (⟨[]⟩ : VirtualFs)) ∧
    (VirtualFs.mk []).unmount [Component.normal "a"] = (none, (⟨[]⟩ : VirtualFs)) :=
  ⟨c9_unmount_inverse.1 ⟨[]⟩ ⟨[([Component.normal "a"], testFs)]⟩
      [Component.normal "a"] testFs (by rfl),
   c9_unmount_inverse.2 ⟨[]⟩ [Component.normal "a"] (by simp)⟩

/-- C5: a well-formed path with no exact/descendant match lists exactly one
synthesized entry per binding whose base lies strictly inside it, keyed by
the base made relative to the path and mapped to `VDIR_META`; with no such
binding, `read_dir` fails not-found. -/
theorem c5_synthesized_listing (st : VirtualFs) (p : Path)
    (hinv : TableInv st) (hval : is_valid_path p = true)
    (hnopre : ∀ e ∈ st.mounted, ¬ e.1 <+: p) :
    ((∃ e ∈ st.mounted, p <+: e.1) →
      ∃ m, st.read_dir p = .ok m ∧
        (m.map Prod.fst).Nodup ∧
        m.length = (st.mounted.filter fun e => p.isPrefixOf e.1).length ∧
        ∀ k v, ((k, v) ∈ m ↔
          v = VDIR_META ∧ k ≠ [] ∧ ∃ fs, (p ++ k, fs) ∈ st.mounted)) ∧
    ((¬ ∃ e ∈ st.mounted, p <+: e.1) → st.read_dir p = .error ⟨.notFound, ""⟩) := by
  have hnd0 : ((([] : List (Path × Metadata)) ++ ancEntries p st.mounted).map
      Prod.fst).Nodup := by
    simpa using ancEntries_keys_nodup (p := p) hinv
  obtain ⟨m, hm, hperm⟩ := readDirLoop_anc ([] : List (Path × Metadata)) hnopre hnd0
  rw [read_dir_eq_loop hval]
  constructor
  · intro hex
    have hne : ancEntries p st.mounted ≠ [] := by
      obtain ⟨e, he, hp⟩ := hex
      intro hnil
      have hmm : (e.1.drop p.length, VDIR_META) ∈ ancEntries p st.mounted :=
        mem_ancEntries.mpr ⟨rfl, e, he, hp, rfl⟩
      rw [hnil] at hmm
      cases hmm
    have hempty : ((([] : List (Path × Metadata)) ++
        ancEntries p st.mounted)).isEmpty = false := by
      simp only [List.nil_append]
      cases hanc : ancEntries p st.mounted with
      | nil => exact absurd hanc hne
      | cons a as => rfl
    rw [hempty] at hm
    simp only [Bool.false_eq_true, if_false] at hm
    refine ⟨m, hm, ?_, ?_, ?_⟩
    · exact ((hperm.map Prod.fst).nodup_iff).mpr hnd0
    · rw [hperm.length_eq]
      simp only [List.nil_append]
      exact ancEntries_length
    · intro k v
      rw [hperm.mem_iff]
      simp only [List.nil_append]
      rw [mem_ancEntries]
      constructor
      · rintro ⟨hv, e, he, hpe, hk⟩
        obtain ⟨t, ht⟩ := hpe
        have hteq : t = k := by
          rw [← ht, List.drop_left] at hk
          exact hk
        subst hteq
        refine ⟨hv, ?_, e.2, ?_⟩
        · intro hk0
          apply hnopre e he
          rw [← ht, hk0, List.append_nil]
        · rw [ht]
          exact he
      · rintro ⟨hv, hk0, fs, hfs⟩
        refine ⟨hv, (p ++ k, fs), hfs, List.prefix_append p k, ?_⟩
        rw [List.drop_left]
  · intro hnex
    have hfil : (st.mounted.filter fun e => p.isPrefixOf e.1) = [] := by
      rw [List.filter_eq_nil_iff]
      intro e he hq
      exact hnex ⟨e, he, List.isPrefixOf_iff_prefix.mp hq⟩
    have hanc : ancEntries p st.mounted = [] := by
      simp [ancEntries, hfil]
    rw [hanc] at hm
    simp at hm
    exact hm

/-- Witness for C5: listing the root of a two-mount table yields the two
synthesized entries; on the empty table the listing is not-found. -/
theorem c5_synthesized_listing_witness :
    (∃ m, demoSt.read_dir [] = .ok m ∧
      (m.map Prod.fst).Nodup ∧
      m.length = (demoSt.mounted.filter fun e => ([] : Path).isPrefixOf e.1).length ∧
      ∀ k v, ((k, v) ∈ m ↔
        v = VDIR_META ∧ k ≠ [] ∧ ∃ fs, (([] : Path) ++ k, fs) ∈ demoSt.mounted)) ∧
    (VirtualFs.mk []).read_dir [] = .error ⟨.notFound, ""⟩ :=
  ⟨(c5_synthesized_listing demoSt [] (by decide) (by decide) (by decide)).1 (by decide),
   (c5_synthesized_listing ⟨[]⟩ [] (by decide) (by decide) (by simp)).2 (by simp)⟩

/-- Membership in the `StdFs::read_dir` fold: every collected key is the
queried path extended by one entry name. -/
theorem mem_foldl_insert {vpath : Path} :
    ∀ (ents : List (String × Metadata)) (ret : List (Path × Metadata))
      (x : Path × Metadata),
      x ∈ ents.foldl
        (fun r ent => insertSorted (vpath ++ [Component.normal ent.1]) ent.2 r) ret →
      x ∈ ret ∨ ∃ ent ∈ ents, x.1 = vpath ++ [Component.normal ent.1] := by
  intro ents
  induction ents with
  | nil =>
    intro ret x hx
    exact Or.inl hx
  | cons e rest ih =>
    intro ret x hx
    rw [List.foldl_cons] at hx
    rcases ih _ x hx with h | ⟨e', he', hk⟩
    · rcases mem_of_mem_insertSorted h with h | h
      · exact Or.inr ⟨e, List.mem_cons_self _ _, by rw [h]⟩
      · exact Or.inl h
    · exact Or.inr ⟨e', List.mem_cons_of_mem _ he', hk⟩

/-- Membership in a successful `read_dir` scan with no exact match: every
entry's key, prefixed by the queried path, is a mounted base. -/
theorem readDirLoop_ok_mem {p : Path} :
    ∀ {l : List (Path × Filesystem)} {ret m : List (Path × Metadata)},
      (∀ e ∈ l, ¬ e.1 <+: p) →
      readDirLoop p l ret = .ok m →
      ∀ x ∈ m, x ∈ ret ∨ ∃ fs, (p ++ x.1, fs) ∈ l := by
  intro l
  induction l with
  | nil =>
    intro ret m _ hok x hx
    simp only [readDirLoop] at hok
    split at hok
    · simp [not_found] at hok
    · injection hok with h
      subst h
      exact Or.inl hx
  | cons e rest ih =>
    intro ret m hno hok x hx
    rcases e with ⟨b', fs'⟩
    have h1 : ¬ b' <+: p := hno (b', fs') (List.mem_cons_self _ _)
    have hno' : ∀ e ∈ rest, ¬ e.1 <+: p := fun e he => hno e (List.mem_cons_of_mem _ he)
    simp only [readDirLoop, stripPre_none_of_not_pre h1] at hok
    by_cases h2 : p <+: b'
    · rw [stripPre_some_of_pre h2] at hok
      rcases ih hno' hok x hx with h | ⟨fs, hfs⟩
      · rcases mem_of_mem_insertSorted h with h | h
        · refine Or.inr ⟨fs', ?_⟩
          obtain ⟨t, ht⟩ := h2
          have hx1 : x.1 = b'.drop p.length := by rw [h]
          rw [hx1, ← ht, List.drop_left, ht]
          exact List.mem_cons_self _ _
        · exact Or.inl h
      · exact Or.inr ⟨fs, List.mem_cons_of_mem _ hfs⟩
    · rw [stripPre_none_of_not_pre h2] at hok
      rcases ih hno' hok x hx with h | ⟨fs, hfs⟩
      · exact Or.inl h
      · exact Or.inr ⟨fs, List.mem_cons_of_mem _ hfs⟩

/-- C2 counterexample: with a backend at `data` whose listing has the key
`child`, the table's `read_dir("data")` succeeds with the key `child`
returned verbatim, which does not have the queried path `data` as a
leading prefix — refuting the claim that every key of a successful
`read_dir` includes the queried path as a leading prefix. -/
theorem c2_full_path_keys_counterexample :
    (VirtualFs.mk [([Component.normal "data"], testFs)]).read_dir
        [Component.normal "data"]
      = .ok [([Component.normal "child"], testMeta)] ∧
    ¬ [Component.normal "data"] <+: [Component.normal "child"] :=
  ⟨rfl, by decide⟩

/-- C2 amended: the disk backend's `read_dir` keys are the queried path
extended by an entry name (full paths, never bare basenames); the mount
table returns a matched backend's mapping verbatim (so its keys are
relative to the backend, not to the queried path); and in the synthesized
case every key, prefixed by the queried path, is a mounted base (keys are
relative to the queried path). -/
theorem c2_read_dir_key_shapes :
    (∀ (os : OsEnv) (sfs : StdFs) (vpath : Path) (m : List (Path × Metadata)),
      StdFs.read_dir os sfs vpath = .ok m →
      ∀ k v, (k, v) ∈ m → vpath <+: k ∧ k ≠ vpath) ∧
    (∀ (st : VirtualFs) (b : Path) (fs : Filesystem) (q : Path),
      TableInv st → (b, fs) ∈ st.mounted → is_valid_path q = true → b <+: q →
      st.read_dir q = fs.read_dir (q.drop b.length)) ∧
    (∀ (st : VirtualFs) (q : Path) (m : List (Path × Metadata)),
      is_valid_path q = true → (∀ e ∈ st.mounted, ¬ e.1 <+: q) →
      st.read_dir q = .ok m →
      ∀ k v, (k, v) ∈ m → k ≠ [] ∧ ∃ fs, (q ++ k, fs) ∈ st.mounted) := by
  refine ⟨?_, ?_, ?_⟩
  · intro os sfs vpath m hok k v hkv
    simp only [StdFs.read_dir] at hok
    split at hok
    · simp at hok
    · split at hok
      · simp at hok
      · injection hok with h
        subst h
        rcases mem_foldl_insert _ [] (k, v) hkv with h | ⟨ent, hent, hk⟩
        · cases h
        · have hk' : k = vpath ++ [Component.normal ent.1] := hk
          constructor
          · rw [hk']
            exact List.prefix_append _ _
          · rw [hk']
            intro hh
            have hlen := congrArg List.length hh
            simp at hlen
  · intro st b fs q hinv hmem hval hpre
    rw [read_dir_eq_loop hval]
    exact readDirLoop_deleg [] hinv hmem hpre
  · intro st q m hval hnopre hok k v hkv
    rw [read_dir_eq_loop hval] at hok
    rcases readDirLoop_ok_mem hnopre hok (k, v) hkv with h | ⟨fs, hfs⟩
    · cases h
    · constructor
      · intro hk0
        apply hnopre (q ++ k, fs) hfs
        rw [hk0, List.append_nil]
      · exact ⟨fs, hfs⟩

/-- Witness for the amended C2 at concrete backends and paths. -/
theorem c2_read_dir_key_shapes_witness :
    ([Component.normal "d"] <+: [Component.normal "d", Component.normal "f"] ∧
      [Component.normal "d", Component.normal "f"] ≠ [Component.normal "d"]) ∧
    (VirtualFs.mk [([Component.normal "data"], testFs)]).read_dir
        [Component.normal "data", Component.normal "s"]
      = testFs.read_dir [Component.normal "s"] ∧
    ([Component.normal "a", Component.normal "b"] ≠ ([] : Path) ∧
      ∃ fs, (([] : Path) ++ [Component.normal "a", Component.normal "b"], fs)
        ∈ demoSt.mounted) :=
  ⟨c2_read_dir_key_shapes.1 ⟨fun _ => .ok [("f", testMeta)]⟩ ⟨[Component.normal "r"]⟩
      [Component.normal "d"]
      [([Component.normal "d", Component.normal "f"], testMeta)] rfl
      [Component.normal "d", Component.normal "f"] testMeta (by simp),
   c2_read_dir_key_shapes.2.1 ⟨[([Component.normal "data"], testFs)]⟩
      [Component.normal "data"] testFs
      [Component.normal "data", Component.normal "s"]
      (by decide) (by simp) (by decide) (by decide),
   c2_read_dir_key_shapes.2.2 demoSt [] _ (by decide) (by decide) rfl
      [Component.normal "a", Component.normal "b"] VDIR_META (by decide)⟩

end Afs
